import Mathlib

/-!
Verification of the large-file content-access engine of the `aird`
file-browsing server: chunked byte-range serving (buffered vs memory-mapped
strategy), line-offset indexing, and the streaming substring-search engine
with its websocket event protocol.

The engine lives in the repository module `aird/main.py`
(class `MMapFileHandler` and class `SuperSearchWebSocketHandler`), which is
exercised by `tests/test_mmap_handler.py` and
`tests/test_websocket_handlers.py`.  Files are modelled as lists of byte
values (`List Nat`, newline = 10) or lists of characters; the event
protocol is modelled as a pure function from the request and the matched
files to the list of emitted events.
-/

/-- Modelled from the spec: `MMAP_MIN_SIZE` from `aird/constants.py`
("Minimum file size to use mmap"), 1 MiB. -/
def MMAP_MIN_SIZE : Nat := 1024 * 1024

/-- Modelled from the spec: `CHUNK_SIZE` from `aird/constants.py`, 64 KiB. -/
def CHUNK_SIZE : Nat := 1024 * 64

/-- Modelled from the spec: `MMapFileHandler.should_use_mmap` (absent
`aird/main.py`): a file uses the memory-mapped strategy exactly when its
size is at least `MMAP_MIN_SIZE` (threshold inclusive, per
`test_should_use_mmap_exact_threshold`). -/
def should_use_mmap (file_size : Nat) : Bool :=
  decide (MMAP_MIN_SIZE ≤ file_size)

/-- Modelled from the spec: the memory-mapped delivery loop of
`MMapFileHandler.serve_file_chunk` (absent `aird/main.py`), spec §4.2 step 2:
yield successive slices of the mapped region sized `chunk_size`, advancing a
cursor until the inclusive `stop` bound is passed. -/
def mmapChunks (content : List Nat) (cursor stop chunk_size : Nat) :
    List (List Nat) :=
  if h : stop + 1 ≤ cursor ∨ chunk_size = 0 then []
  else
    ((content.drop cursor).take (min chunk_size (stop + 1 - cursor))) ::
      mmapChunks content (cursor + chunk_size) stop chunk_size
termination_by stop + 1 - cursor
decreasing_by
  simp only [not_or] at h
  omega

/-- Modelled from the spec: the buffered-read delivery loop of
`MMapFileHandler.serve_file_chunk` (absent `aird/main.py`), spec §4.2 step 3:
seek to `pos`, read up to `chunk_size` bytes at a time until the inclusive
`stop` bound (or EOF) is reached; a read at or past EOF returns no bytes and
ends the sequence. -/
def bufferedChunks (content : List Nat) (pos stop chunk_size : Nat) :
    List (List Nat) :=
  if h : stop + 1 ≤ pos ∨ chunk_size = 0 then []
  else if h2 : (content.drop pos).take (min chunk_size (stop + 1 - pos)) = [] then
    []
  else
    ((content.drop pos).take (min chunk_size (stop + 1 - pos))) ::
      bufferedChunks content
        (pos + ((content.drop pos).take (min chunk_size (stop + 1 - pos))).length)
        stop chunk_size
termination_by stop + 1 - pos
decreasing_by
  simp only [not_or] at h
  have hlen : 0 < ((content.drop pos).take (min chunk_size (stop + 1 - pos))).length :=
    List.length_pos.mpr h2
  omega

/-- Modelled from the spec: the newline-scanning loop of
`MMapFileHandler.find_line_offsets` (absent `aird/main.py`), spec §4.3:
walking the bytes from position `pos`, append the offset immediately
following each newline byte (10) that is not the final byte of the file,
until `budget` further offsets have been collected or EOF is reached.
The remaining suffix being nonempty after a newline is exactly the
condition that the following offset is still inside the file. -/
def lineOffsetsAux : List Nat → Nat → Nat → List Nat
  | [], _, _ => []
  | b :: rest, pos, budget =>
    if budget = 0 then []
    else if b = 10 ∧ rest ≠ [] then
      (pos + 1) :: lineOffsetsAux rest (pos + 1) (budget - 1)
    else lineOffsetsAux rest (pos + 1) budget

/-- Modelled from the spec: `MMapFileHandler.find_line_offsets` (absent
`aird/main.py`), spec §4.3: always include offset 0 as the first entry
(even for an empty file), then the offsets following each newline, bounded
to `max_lines` entries in total. -/
def find_line_offsets (content : List Nat) (max_lines : Nat) : List Nat :=
  0 :: lineOffsetsAux content 0 (max_lines - 1)

/-! ### Chunked content server: dispatcher and failure modes -/

/-- Modelled from the spec: the failure taxonomy of §4.2/§7 for
`serve_file_chunk` — missing file, invalid byte range, mid-stream I/O
failure. -/
inductive ServeError where
  | notFound
  | invalidRange
  | ioError
deriving DecidableEq, Repr

/-- Modelled from the spec: `MMapFileHandler.serve_file_chunk` (absent
`aird/main.py`), spec §4.2: stat the file (`none` = missing → NotFound),
validate a supplied range (`start > end` or `start ≥ size` → InvalidRange),
then deliver the effective inclusive range (defaulting to the whole file)
with the strategy chosen by `should_use_mmap`. -/
def serve_file_chunk (file : Option (List Nat)) (start stop : Option Nat)
    (chunk_size : Nat) : Except ServeError (List (List Nat)) :=
  match file with
  | none => Except.error ServeError.notFound
  | some content =>
    let size := content.length
    let invalid : Bool :=
      match start, stop with
      | some s, some e => decide (e < s) || decide (size ≤ s)
      | some s, none => decide (size ≤ s)
      | none, _ => false
    if invalid then Except.error ServeError.invalidRange
    else
      let s := start.getD 0
      let e := stop.getD (size - 1)
      if should_use_mmap size then Except.ok (mmapChunks content s e chunk_size)
      else Except.ok (bufferedChunks content s e chunk_size)

/-- Modelled from the spec: a fault model for mid-stream I/O failures —
`fault = some f` means any read of a window of bytes containing position
`f` raises an I/O error. -/
def faultHit (fault : Option Nat) (pos n : Nat) : Bool :=
  match fault with
  | none => false
  | some f => decide (pos ≤ f) && decide (f < pos + n)

/-- Modelled from the spec: the delivery loop of `serve_file_chunk` under
the I/O fault model, spec §4.2 failure clause: any I/O failure mid-stream
aborts the sequence and surfaces an I/O error to the consumer (no partial
silent truncation).  Returns the chunks emitted before the failure together
with the terminal status (`none` = completed normally). -/
def serveRunF (content : List Nat) (fault : Option Nat)
    (pos stop chunk_size : Nat) : List (List Nat) × Option ServeError :=
  if h : stop + 1 ≤ pos ∨ chunk_size = 0 then ([], none)
  else if faultHit fault pos (min chunk_size (stop + 1 - pos)) then
    ([], some ServeError.ioError)
  else if h2 : (content.drop pos).take (min chunk_size (stop + 1 - pos)) = [] then
    ([], none)
  else
    let r := serveRunF content fault
      (pos + ((content.drop pos).take (min chunk_size (stop + 1 - pos))).length)
      stop chunk_size
    (((content.drop pos).take (min chunk_size (stop + 1 - pos))) :: r.1, r.2)
termination_by stop + 1 - pos
decreasing_by
  simp only [not_or] at h
  have hlen : 0 < ((content.drop pos).take (min chunk_size (stop + 1 - pos))).length :=
    List.length_pos.mpr h2
  omega

/-- The §8 scenario file: a file above the mmap threshold whose first 1001
bytes are 1000 `B`s (66) followed by one `C` (67), padded to any larger
size. -/
def bcScenarioFile (pad : Nat) : List Nat :=
  List.replicate 1000 66 ++ 67 :: List.replicate pad 88

/-! ### Streaming search engine -/

/-- Modelled from the spec: the occurrence scanner used by
`SuperSearchWebSocketHandler.send_match` (absent `aird/main.py`), §4.4:
scan the line left to right; at a match report the current position and
resume the search `needle.length` characters later (non-overlapping), per
"after finding a match at position p with length L, the next search resumes
at p + L".  `skip` counts positions still covered by the previous match. -/
def occAux : List Char → List Char → Nat → Nat → List Nat
  | [], _, _, _ => []
  | c :: rest, needle, pos, skip =>
    if skip ≠ 0 then occAux rest needle (pos + 1) (skip - 1)
    else if needle.isPrefixOf (c :: rest) then
      pos :: occAux rest needle (pos + 1) (needle.length - 1)
    else occAux rest needle (pos + 1) 0

/-- Modelled from the spec: the per-line match-position computation of
`send_match` — every non-overlapping occurrence of the literal search
string, left to right, as character offsets. -/
def match_positions (line needle : List Char) : List Nat :=
  occAux line needle 0 0

/-- Modelled from the spec: splitting file text into logical lines the way
line iteration does in the scanner — a trailing newline terminates the last
line rather than opening an empty one, and `line_content` excludes the
newline. -/
def splitLinesAux : List Char → List Char → List (List Char)
  | [], cur => if cur = [] then [] else [cur.reverse]
  | c :: rest, cur =>
    if c = '\n' then cur.reverse :: splitLinesAux rest []
    else splitLinesAux rest (c :: cur)

def splitLines (content : List Char) : List (List Char) :=
  splitLinesAux content []

/-- Modelled from the spec §3: one `match` record — 1-based line number,
line text without its newline, and the ordered intra-line match offsets. -/
structure SearchMatch where
  line_number : Nat
  line_content : List Char
  match_positions : List Nat
deriving DecidableEq, Repr

/-- Modelled from the spec: the matching lines of a file — each line with
at least one occurrence of the search string, in line order. -/
def lineMatches (content needle : List Char) : List SearchMatch :=
  ((splitLines content).enum.map
    (fun p => SearchMatch.mk (p.1 + 1) p.2 (occAux p.2 needle 0 0))).filter
    (fun m => !m.match_positions.isEmpty)

/-- Modelled from the spec: `MMapFileHandler.search_in_file` (absent
`aird/main.py`) — per-line matches of a single file, capped at
`max_results`. -/
def search_in_file (content needle : List Char) (max_results : Nat) :
    List SearchMatch :=
  (lineMatches content needle).take max_results

/-! ### Path guard -/

/-- Modelled from the spec §4.1: the Forbidden error of `resolve`. -/
inductive ResolveError where
  | forbidden
deriving DecidableEq, Repr

/-- Modelled from the spec §4.1: normalization of a path given as segments —
empty and `.` segments vanish, `..` pops the previous segment (and cannot
escape the filesystem root). -/
def normalizeAux : List String → List String → List String
  | stack, [] => stack.reverse
  | stack, seg :: rest =>
    if seg = "" ∨ seg = "." then normalizeAux stack rest
    else if seg = ".." then normalizeAux stack.tail rest
    else normalizeAux (seg :: stack) rest

def normalizePath (p : List String) : List String := normalizeAux [] p

/-- Modelled from the spec: joining a user path against the configured
root — an absolute user path replaces the root (as `os.path.join` does),
a relative one is appended under it. -/
def joinPath (root user : List String) (userIsAbs : Bool) : List String :=
  if userIsAbs then user else root ++ user

/-- Modelled from the spec §4.1: `resolve(root, user_path)` — resolve the
user path to absolute segment form and verify the configured root is a
prefix of it at path-segment granularity; otherwise fail with Forbidden. -/
def resolve (root user : List String) (userIsAbs : Bool) :
    Except ResolveError (List String) :=
  if root.isPrefixOf (normalizePath (joinPath root user userIsAbs)) then
    Except.ok (normalizePath (joinPath root user userIsAbs))
  else Except.error ResolveError.forbidden

/-! ### Websocket search protocol -/

/-- Modelled from the spec §6: the downstream event payloads of the search
websocket. -/
inductive Event where
  | search_start
  | no_files (message : String)
  | file_start (file_path : String)
  | matchEv (file_path : String) (line_number : Nat) (line_content : List Char)
      (search_text : List Char) (match_positions : List Nat)
  | file_end (file_path : String)
  | file_error (file_path : String) (message : String)
  | search_complete
  | error (message : String)
deriving DecidableEq, Repr

/-- Modelled from the spec: one globbed file — its path relative to root
and its text, `none` when reading/decoding the file fails (permission
denied, vanished, decode error). -/
structure FileEntry where
  name : String
  content : Option (List Char)
deriving DecidableEq, Repr

/-- Modelled from the spec §3/§5: the session cancellation flag as observed
at the cooperative check points.  Check point 0 is request arrival, check
point `i + 1` precedes the scan of the `i`-th file.  `cancelFrom = some n`
means the flag is set from check point `n` on (the flag is only ever set,
never cleared, within a search). -/
def cancelled (cancelFrom : Option Nat) (checkIdx : Nat) : Bool :=
  match cancelFrom with
  | none => false
  | some n => decide (n ≤ checkIdx)

/-- The `match` event payloads of a file's capped match records. -/
def matchEvents (needle : List Char) (name : String)
    (ms : List SearchMatch) : List Event :=
  ms.map (fun m =>
    Event.matchEv name m.line_number m.line_content needle m.match_positions)

/-- Modelled from the spec: the events one file contributes — `file_error`
for an unreadable file, otherwise `file_start`, the capped per-line match
events, `file_end`. -/
def fileEvents (needle : List Char) (budget : Nat) (f : FileEntry) :
    List Event :=
  match f.content with
  | none => [Event.file_error f.name "Error searching file"]
  | some c =>
    Event.file_start f.name ::
      matchEvents needle f.name ((lineMatches c needle).take budget) ++
      [Event.file_end f.name]

/-- Number of match events one file contributes against a budget. -/
def fileTaken (needle : List Char) (budget : Nat) (f : FileEntry) : Nat :=
  match f.content with
  | none => 0
  | some c => ((lineMatches c needle).take budget).length

/-- Modelled from the spec §4.4: the per-file scan loop of
`SuperSearchWebSocketHandler.perform_search` (absent `aird/main.py`):
check the cancellation flag before each file (stop silently when set),
stop with `search_complete` once `max_results` matches have been emitted in
total or all files are done; the per-file events and budget consumption are
`fileEvents` and `fileTaken`. -/
def scanFiles (needle : List Char) :
    Nat → Nat → List FileEntry → Option Nat → List Event
  | checkIdx, budget, files, cancelFrom =>
    if cancelled cancelFrom checkIdx then []
    else if budget = 0 then [Event.search_complete]
    else
      match files with
      | [] => [Event.search_complete]
      | f :: rest =>
        fileEvents needle budget f ++
          scanFiles needle (checkIdx + 1) (budget - fileTaken needle budget f)
            rest cancelFrom

/-- Modelled from the spec §4.4: `SuperSearchWebSocketHandler.perform_search`
(absent `aird/main.py`): nothing is emitted when the session is already
cancelled at request arrival; a pattern escaping the root emits a single
`error` event and touches no file; otherwise `search_start`, then either
`no_files` (empty glob) or the per-file scan. -/
def perform_search (root pattern : List String) (patternIsAbs : Bool)
    (files : List FileEntry) (search_text : List Char) (max_results : Nat)
    (cancelFrom : Option Nat) : List Event :=
  if cancelled cancelFrom 0 then []
  else
    match resolve root pattern patternIsAbs with
    | Except.error _ =>
      [Event.error "Search pattern must be within the server root directory"]
    | Except.ok _ =>
      Event.search_start ::
        (if files.isEmpty then [Event.no_files "No files found matching pattern"]
         else scanFiles search_text 1 max_results files cancelFrom)

/-- Modelled from the spec §3: the per-connection search session state. -/
structure SuperSearchSession where
  closed : Bool
  search_cancelled : Bool
deriving DecidableEq, Repr

/-- Modelled from the spec: `SuperSearchWebSocketHandler.open` (absent
`aird/main.py`): without an authenticated user the connection is closed
immediately; with one it stays open and the cancellation flag is
initialized to false. -/
def wsOpen (current_user : Option String) : SuperSearchSession :=
  match current_user with
  | none => ⟨true, false⟩
  | some _ => ⟨false, false⟩

/-- Modelled from the spec: `SuperSearchWebSocketHandler.on_close` (absent
`aird/main.py`): closing the connection sets the session's cancellation
flag. -/
def on_close (s : SuperSearchSession) : SuperSearchSession :=
  ⟨s.closed, true⟩

/-- Modelled from the spec: the events a connection's search request can
deliver — a connection closed at open delivers none. -/
def session_search_events (current_user : Option String)
    (root pattern : List String) (patternIsAbs : Bool) (files : List FileEntry)
    (search_text : List Char) (max_results : Nat) (cancelFrom : Option Nat) :
    List Event :=
  if (wsOpen current_user).closed then []
  else perform_search root pattern patternIsAbs files search_text max_results
    cancelFrom

def isMatchEvent : Event → Bool
  | Event.matchEv _ _ _ _ _ => true
  | _ => false

/-- Number of `match` events in an emitted event sequence. -/
def countMatches (events : List Event) : Nat :=
  (events.filter isMatchEvent).length

/-- Matching-line count of one globbed file (0 for an unreadable file). -/
def fileMatchCount (needle : List Char) (f : FileEntry) : Nat :=
  match f.content with
  | none => 0
  | some c => (lineMatches c needle).length

/-- Total matching-line count across all globbed files. -/
def totalMatches (needle : List Char) (files : List FileEntry) : Nat :=
  (files.map (fileMatchCount needle)).sum

/-! ### Line-offset lemmas -/

theorem lineOffsetsAux_nil : ∀ (content : List Nat) (pos budget : Nat),
    10 ∉ content → lineOffsetsAux content pos budget = [] := by
  intro content
  induction content with
  | nil => intro pos budget _; rfl
  | cons b rest ih =>
    intro pos budget h
    have hb : ¬(b = 10) := fun hb =>
      h (hb ▸ List.mem_cons_self b rest)
    have hrest : 10 ∉ rest := fun hm => h (List.mem_cons_of_mem _ hm)
    rcases Nat.eq_zero_or_pos budget with h0 | h0
    · subst h0; rfl
    · have hcond : ¬(b = 10 ∧ rest ≠ []) := fun hc => hb hc.1
      simp only [lineOffsetsAux, if_neg (by omega : ¬budget = 0), if_neg hcond]
      exact ih (pos + 1) budget hrest

theorem lineOffsetsAux_mem : ∀ (content : List Nat) (pos budget off : Nat),
    off ∈ lineOffsetsAux content pos budget →
    pos < off ∧ content[off - pos - 1]? = some 10 := by
  intro content
  induction content with
  | nil => intro pos budget off h; simp [lineOffsetsAux] at h
  | cons b rest ih =>
    intro pos budget off h
    rcases Nat.eq_zero_or_pos budget with h0 | h0
    · subst h0; simp [lineOffsetsAux] at h
    by_cases hcond : b = 10 ∧ rest ≠ []
    · simp only [lineOffsetsAux, if_neg (by omega : ¬budget = 0), if_pos hcond,
        List.mem_cons] at h
      rcases h with h | h
      · subst h
        refine ⟨Nat.lt_succ_self pos, ?_⟩
        have : pos + 1 - pos - 1 = 0 := by omega
        simp [this, hcond.1]
      · obtain ⟨hlt, hget⟩ := ih (pos + 1) (budget - 1) off h
        refine ⟨by omega, ?_⟩
        have hidx : off - pos - 1 = (off - (pos + 1) - 1) + 1 := by omega
        rw [hidx, List.getElem?_cons_succ]
        exact hget
    · simp only [lineOffsetsAux, if_neg (by omega : ¬budget = 0), if_neg hcond] at h
      obtain ⟨hlt, hget⟩ := ih (pos + 1) budget off h
      refine ⟨by omega, ?_⟩
      have hidx : off - pos - 1 = (off - (pos + 1) - 1) + 1 := by omega
      rw [hidx, List.getElem?_cons_succ]
      exact hget

theorem lineOffsetsAux_chain : ∀ (content : List Nat) (pos budget : Nat),
    List.Chain' (· < ·) (lineOffsetsAux content pos budget) := by
  intro content
  induction content with
  | nil => intro pos budget; simp [lineOffsetsAux]
  | cons b rest ih =>
    intro pos budget
    rcases Nat.eq_zero_or_pos budget with h0 | h0
    · subst h0; simp [lineOffsetsAux]
    by_cases hcond : b = 10 ∧ rest ≠ []
    · simp only [lineOffsetsAux, if_neg (by omega : ¬budget = 0), if_pos hcond]
      refine List.chain'_cons'.mpr ⟨?_, ih (pos + 1) (budget - 1)⟩
      intro q hq
      have hmem : q ∈ lineOffsetsAux rest (pos + 1) (budget - 1) :=
        List.mem_of_mem_head? hq
      exact (lineOffsetsAux_mem rest (pos + 1) (budget - 1) q hmem).1
    · simp only [lineOffsetsAux, if_neg (by omega : ¬budget = 0), if_neg hcond]
      exact ih (pos + 1) budget

theorem lineOffsetsAux_length : ∀ (l : List Nat) (pos budget : Nat),
    (lineOffsetsAux (l ++ [10]) pos budget).length =
      min ((l ++ [10]).count 10 - 1) budget := by
  intro l
  induction l with
  | nil =>
    intro pos budget
    rcases Nat.eq_zero_or_pos budget with h0 | h0
    · subst h0; simp [lineOffsetsAux]
    · have hcond : ¬((10 : Nat) = 10 ∧ ([] : List Nat) ≠ []) := by simp
      simp [lineOffsetsAux, if_neg (by omega : ¬budget = 0), hcond]
  | cons a l ih =>
    intro pos budget
    have hcount : 1 ≤ (l ++ [10]).count 10 := by
      have : (l ++ [10]).count 10 = l.count 10 + 1 := by
        simp [List.count_append]
      omega
    rcases Nat.eq_zero_or_pos budget with h0 | h0
    · subst h0; simp [lineOffsetsAux]
    by_cases ha : a = 10
    · have hcond : a = 10 ∧ l ++ [10] ≠ [] := ⟨ha, by simp⟩
      simp only [List.cons_append, lineOffsetsAux, List.append_eq,
        if_neg (by omega : ¬budget = 0), if_pos hcond, List.length_cons]
      rw [ih (pos + 1) (budget - 1)]
      have hc : List.count 10 (a :: (l ++ [10])) = List.count 10 (l ++ [10]) + 1 := by
        simp [List.count_cons, ha]
      rw [hc]
      omega
    · have hcond : ¬(a = 10 ∧ l ++ [10] ≠ []) := fun hc => ha hc.1
      simp only [List.cons_append, lineOffsetsAux, List.append_eq,
        if_neg (by omega : ¬budget = 0), if_neg hcond]
      rw [ih (pos + 1) budget]
      have hc : List.count 10 (a :: (l ++ [10])) = List.count 10 (l ++ [10]) := by
        simp [List.count_cons, ha]
      rw [hc]

/-! ### Chunk-serving lemmas: both delivery strategies flatten to the
requested byte slice. -/

theorem mmapChunks_flatten (content : List Nat) (stop cs : Nat) (hcs : 0 < cs) :
    ∀ cursor, (mmapChunks content cursor stop cs).flatten =
      (content.drop cursor).take (stop + 1 - cursor) := by
  have H : ∀ n cursor, stop + 1 - cursor ≤ n →
      (mmapChunks content cursor stop cs).flatten =
        (content.drop cursor).take (stop + 1 - cursor) := by
    intro n
    induction n with
    | zero =>
      intro cursor h
      have hle : stop + 1 ≤ cursor := by omega
      rw [mmapChunks]
      simp [hle, Nat.sub_eq_zero_of_le hle]
    | succ n ih =>
      intro cursor h
      by_cases hle : stop + 1 ≤ cursor
      · rw [mmapChunks]
        simp [hle, Nat.sub_eq_zero_of_le hle]
      · rw [mmapChunks]
        have hcond : ¬(stop + 1 ≤ cursor ∨ cs = 0) := by omega
        rw [dif_neg hcond, List.flatten_cons, ih (cursor + cs) (by omega)]
        have hdd : content.drop (cursor + cs) = (content.drop cursor).drop cs := by
          rw [List.drop_drop]
        rw [hdd]
        rcases Nat.le_total (stop + 1 - cursor) cs with hc | hc
        · have hmin : min cs (stop + 1 - cursor) = stop + 1 - cursor :=
            Nat.min_eq_right hc
          have hz : stop + 1 - (cursor + cs) = 0 := by omega
          simp [hmin, hz]
        · have hmin : min cs (stop + 1 - cursor) = cs := Nat.min_eq_left hc
          rw [hmin]
          have hsplit : stop + 1 - cursor = cs + (stop + 1 - (cursor + cs)) := by
            omega
          rw [hsplit, List.take_add]
  intro cursor
  exact H (stop + 1 - cursor) cursor (Nat.le_refl _)

theorem bufferedChunks_flatten (content : List Nat) (stop cs : Nat)
    (hcs : 0 < cs) :
    ∀ pos, (bufferedChunks content pos stop cs).flatten =
      (content.drop pos).take (stop + 1 - pos) := by
  have H : ∀ n pos, stop + 1 - pos ≤ n →
      (bufferedChunks content pos stop cs).flatten =
        (content.drop pos).take (stop + 1 - pos) := by
    intro n
    induction n with
    | zero =>
      intro pos h
      have hle : stop + 1 ≤ pos := by omega
      rw [bufferedChunks]
      simp [hle, Nat.sub_eq_zero_of_le hle]
    | succ n ih =>
      intro pos h
      by_cases hle : stop + 1 ≤ pos
      · rw [bufferedChunks]
        simp [hle, Nat.sub_eq_zero_of_le hle]
      · rw [bufferedChunks]
        have hcond : ¬(stop + 1 ≤ pos ∨ cs = 0) := by omega
        rw [dif_neg hcond]
        by_cases hdata : (content.drop pos).take (min cs (stop + 1 - pos)) = []
        · rw [dif_pos hdata]
          have : min cs (stop + 1 - pos) = 0 ∨ content.drop pos = [] :=
            List.take_eq_nil_iff.mp hdata
          rcases this with h0 | h0
          · omega
          · simp [h0]
        · rw [dif_neg hdata, List.flatten_cons]
          have hdl : 0 < ((content.drop pos).take (min cs (stop + 1 - pos))).length :=
            List.length_pos.mpr hdata
          rw [ih (pos + ((content.drop pos).take (min cs (stop + 1 - pos))).length)
            (by omega)]
          set l := content.drop pos with hl
          set m := min cs (stop + 1 - pos) with hm
          have hmrem : m ≤ stop + 1 - pos := Nat.min_le_right _ _
          have hdd : content.drop (pos + (l.take m).length) = l.drop (l.take m).length := by
            rw [hl, List.drop_drop]
          rw [hdd]
          have hlen : (l.take m).length = min m l.length := List.length_take m l
          rcases Nat.le_total l.length m with hc | hc
          · have htake : l.take m = l := List.take_of_length_le hc
            have hdl2 : (l.take m).length = l.length := by rw [htake]
            rw [hdl2, List.drop_length]
            have : l.length ≤ stop + 1 - pos := Nat.le_trans hc hmrem
            simp [htake, List.take_of_length_le this]
          · have hdl2 : (l.take m).length = m := by omega
            rw [hdl2]
            have hsplit : stop + 1 - pos = m + (stop + 1 - (pos + m)) := by omega
            rw [hsplit, List.take_add]
  intro pos
  exact H (stop + 1 - pos) pos (Nat.le_refl _)

theorem serveRunF_fault (content : List Nat) (f stop cs : Nat) (hcs : 0 < cs) :
    ∀ pos, pos ≤ f → f ≤ stop → f < content.length →
    (serveRunF content (some f) pos stop cs).2 = some ServeError.ioError := by
  have H : ∀ n pos, stop + 1 - pos ≤ n → pos ≤ f → f ≤ stop → f < content.length →
      (serveRunF content (some f) pos stop cs).2 = some ServeError.ioError := by
    intro n
    induction n with
    | zero => intro pos hn hpf hfs _; omega
    | succ n ih =>
      intro pos hn hpf hfs hflen
      have hcond : ¬(stop + 1 ≤ pos ∨ cs = 0) := by omega
      rw [serveRunF, dif_neg hcond]
      by_cases hhit : faultHit (some f) pos (min cs (stop + 1 - pos)) = true
      · rw [if_pos hhit]
      · rw [if_neg hhit]
        have hfar : pos + min cs (stop + 1 - pos) ≤ f := by
          simp only [faultHit, Bool.and_eq_true, decide_eq_true_eq] at hhit
          omega
        have hm : min cs (stop + 1 - pos) = cs := by omega
        have hdlen : ((content.drop pos).take (min cs (stop + 1 - pos))).length
            = min (min cs (stop + 1 - pos)) (content.length - pos) := by
          rw [List.length_take, List.length_drop]
        have hdpos : 0 < ((content.drop pos).take (min cs (stop + 1 - pos))).length := by
          rw [hdlen]
          omega
        have h2 : ¬((content.drop pos).take (min cs (stop + 1 - pos)) = []) := by
          intro hnil
          rw [hnil] at hdpos
          simp at hdpos
        rw [dif_neg h2]
        exact ih (pos + ((content.drop pos).take (min cs (stop + 1 - pos))).length)
          (by omega) (by rw [hdlen]; omega) hfs hflen
  intro pos
  exact H (stop + 1 - pos) pos (Nat.le_refl _)

/-! ### Occurrence-scanner lemmas -/

theorem occAux_mem : ∀ (l needle : List Char) (pos skip q : Nat),
    needle ≠ [] → q ∈ occAux l needle pos skip →
    pos + skip ≤ q ∧ needle.isPrefixOf (l.drop (q - pos)) = true := by
  intro l
  induction l with
  | nil => intro needle pos skip q hne h; simp [occAux] at h
  | cons c rest ih =>
    intro needle pos skip q hne h
    have hL : 1 ≤ needle.length := List.length_pos.mpr hne
    by_cases hskip : skip = 0
    · subst hskip
      rw [occAux, if_neg (by simp)] at h
      by_cases hpre : needle.isPrefixOf (c :: rest) = true
      · rw [if_pos hpre] at h
        rcases List.mem_cons.mp h with rfl | h
        · refine ⟨by omega, ?_⟩
          simpa using hpre
        · obtain ⟨hle, hpre2⟩ := ih needle (pos + 1) (needle.length - 1) q hne h
          refine ⟨by omega, ?_⟩
          have hq : q - pos = (q - (pos + 1)) + 1 := by omega
          rw [hq, List.drop_succ_cons]
          exact hpre2
      · rw [if_neg hpre] at h
        obtain ⟨hle, hpre2⟩ := ih needle (pos + 1) 0 q hne h
        refine ⟨by omega, ?_⟩
        have hq : q - pos = (q - (pos + 1)) + 1 := by omega
        rw [hq, List.drop_succ_cons]
        exact hpre2
    · rw [occAux, if_pos hskip] at h
      obtain ⟨hle, hpre2⟩ := ih needle (pos + 1) (skip - 1) q hne h
      refine ⟨by omega, ?_⟩
      have hq : q - pos = (q - (pos + 1)) + 1 := by omega
      rw [hq, List.drop_succ_cons]
      exact hpre2

theorem occAux_chain : ∀ (l needle : List Char) (pos skip : Nat), needle ≠ [] →
    List.Chain' (fun p q => p + needle.length ≤ q) (occAux l needle pos skip) := by
  intro l
  induction l with
  | nil => intro needle pos skip hne; simp [occAux]
  | cons c rest ih =>
    intro needle pos skip hne
    have hL : 1 ≤ needle.length := List.length_pos.mpr hne
    by_cases hskip : skip = 0
    · subst hskip
      rw [occAux, if_neg (by simp)]
      by_cases hpre : needle.isPrefixOf (c :: rest) = true
      · rw [if_pos hpre]
        refine List.chain'_cons'.mpr ⟨?_, ih needle (pos + 1) (needle.length - 1) hne⟩
        intro q hq
        have hmem : q ∈ occAux rest needle (pos + 1) (needle.length - 1) :=
          List.mem_of_mem_head? hq
        have := (occAux_mem rest needle (pos + 1) (needle.length - 1) q hne hmem).1
        omega
      · rw [if_neg hpre]
        exact ih needle (pos + 1) 0 hne
    · rw [occAux, if_pos hskip]
      exact ih needle (pos + 1) (skip - 1) hne

theorem occAux_complete : ∀ (l needle : List Char) (pos skip j : Nat),
    needle ≠ [] → needle.isPrefixOf (l.drop j) = true →
    j < skip ∨
      ∃ p ∈ occAux l needle pos skip, p ≤ pos + j ∧ pos + j < p + needle.length := by
  intro l
  induction l with
  | nil =>
    intro needle pos skip j hne hj
    rw [List.drop_nil] at hj
    cases needle with
    | nil => exact absurd rfl hne
    | cons a as => simp [List.isPrefixOf] at hj
  | cons c rest ih =>
    intro needle pos skip j hne hj
    have hL : 1 ≤ needle.length := List.length_pos.mpr hne
    by_cases hskip : skip = 0
    · subst hskip
      rw [occAux, if_neg (by simp)]
      by_cases hpre : needle.isPrefixOf (c :: rest) = true
      · rw [if_pos hpre]
        cases j with
        | zero =>
          exact Or.inr ⟨pos, List.mem_cons_self _ _, by omega, by omega⟩
        | succ j =>
          rw [List.drop_succ_cons] at hj
          rcases ih needle (pos + 1) (needle.length - 1) j hne hj with hlt | ⟨p, hp, h1, h2⟩
          · exact Or.inr ⟨pos, List.mem_cons_self _ _, by omega, by omega⟩
          · exact Or.inr ⟨p, List.mem_cons_of_mem _ hp, by omega, by omega⟩
      · rw [if_neg hpre]
        cases j with
        | zero =>
          rw [List.drop_zero] at hj
          exact absurd hj hpre
        | succ j =>
          rw [List.drop_succ_cons] at hj
          rcases ih needle (pos + 1) 0 j hne hj with hlt | ⟨p, hp, h1, h2⟩
          · omega
          · exact Or.inr ⟨p, hp, by omega, by omega⟩
    · rw [occAux, if_pos hskip]
      cases j with
      | zero => exact Or.inl (by omega)
      | succ j =>
        rw [List.drop_succ_cons] at hj
        rcases ih needle (pos + 1) (skip - 1) j hne hj with hlt | ⟨p, hp, h1, h2⟩
        · exact Or.inl (by omega)
        · exact Or.inr ⟨p, hp, by omega, by omega⟩

/-! ### Scan-loop lemmas -/

theorem countMatches_cons (e : Event) (l : List Event) :
    countMatches (e :: l) =
      (if isMatchEvent e then 1 else 0) + countMatches l := by
  simp only [countMatches, List.filter_cons]
  split
  · simp [Nat.add_comm]
  · simp

theorem countMatches_append (a b : List Event) :
    countMatches (a ++ b) = countMatches a + countMatches b := by
  simp [countMatches, List.filter_append]

theorem countMatches_matchEvents (needle : List Char) (name : String)
    (ms : List SearchMatch) :
    countMatches (matchEvents needle name ms) = ms.length := by
  induction ms with
  | nil => simp [matchEvents, countMatches]
  | cons m ms ih =>
    simp only [matchEvents, List.map_cons, countMatches_cons, isMatchEvent]
    simp only [matchEvents] at ih
    rw [ih]
    simp [Nat.add_comm]

theorem countMatches_fileEvents (needle : List Char) (budget : Nat)
    (f : FileEntry) :
    countMatches (fileEvents needle budget f) = fileTaken needle budget f := by
  cases hc : f.content with
  | none => simp [fileEvents, fileTaken, hc, countMatches, isMatchEvent]
  | some c =>
    simp only [fileEvents, fileTaken, hc]
    rw [countMatches_append, countMatches_cons, countMatches_matchEvents]
    simp [countMatches, isMatchEvent]

theorem fileTaken_eq_min (needle : List Char) (budget : Nat) (f : FileEntry) :
    fileTaken needle budget f = min budget (fileMatchCount needle f) := by
  cases hc : f.content with
  | none => simp [fileTaken, fileMatchCount, hc]
  | some c => simp [fileTaken, fileMatchCount, hc, List.length_take]

theorem scanFiles_cancelled (needle : List Char) (checkIdx budget : Nat)
    (files : List FileEntry) (cancelFrom : Option Nat)
    (h : cancelled cancelFrom checkIdx = true) :
    scanFiles needle checkIdx budget files cancelFrom = [] := by
  rw [scanFiles.eq_def]
  simp [h]

theorem scanFiles_cons (needle : List Char) (checkIdx budget : Nat)
    (f : FileEntry) (rest : List FileEntry) (cancelFrom : Option Nat)
    (h1 : cancelled cancelFrom checkIdx = false) (h0 : budget ≠ 0) :
    scanFiles needle checkIdx budget (f :: rest) cancelFrom =
      fileEvents needle budget f ++
        scanFiles needle (checkIdx + 1) (budget - fileTaken needle budget f)
          rest cancelFrom := by
  rw [scanFiles]
  simp [h1, h0]

theorem scanFiles_count (needle : List Char) :
    ∀ (files : List FileEntry) (checkIdx budget : Nat),
    countMatches (scanFiles needle checkIdx budget files none) =
      min budget (totalMatches needle files) := by
  intro files
  induction files with
  | nil =>
    intro checkIdx budget
    rw [scanFiles]
    by_cases h0 : budget = 0 <;>
      simp [cancelled, h0, countMatches, isMatchEvent, totalMatches]
  | cons f rest ih =>
    intro checkIdx budget
    by_cases h0 : budget = 0
    · rw [scanFiles]
      simp [cancelled, h0, countMatches, isMatchEvent]
    · rw [scanFiles_cons needle checkIdx budget f rest none (by simp [cancelled]) h0,
        countMatches_append, countMatches_fileEvents, ih]
      have htot : totalMatches needle (f :: rest) =
          fileMatchCount needle f + totalMatches needle rest := by
        simp [totalMatches]
      rw [htot, fileTaken_eq_min]
      omega

theorem scanFiles_ends_complete (needle : List Char) :
    ∀ (files : List FileEntry) (checkIdx budget : Nat),
    ∃ pre, scanFiles needle checkIdx budget files none =
      pre ++ [Event.search_complete] := by
  intro files
  induction files with
  | nil =>
    intro checkIdx budget
    refine ⟨[], ?_⟩
    rw [scanFiles]
    by_cases h0 : budget = 0 <;> simp [cancelled, h0]
  | cons f rest ih =>
    intro checkIdx budget
    by_cases h0 : budget = 0
    · refine ⟨[], ?_⟩
      rw [scanFiles]
      simp [cancelled, h0]
    · obtain ⟨pre, hpre⟩ :=
        ih (checkIdx + 1) (budget - fileTaken needle budget f)
      refine ⟨fileEvents needle budget f ++ pre, ?_⟩
      rw [scanFiles_cons needle checkIdx budget f rest none (by simp [cancelled]) h0,
        hpre, List.append_assoc]

theorem scanFiles_cancel_take (needle : List Char) :
    ∀ (files : List FileEntry) (checkIdx budget n : Nat),
    scanFiles needle checkIdx budget files (some n) =
      scanFiles needle checkIdx budget (files.take (n - checkIdx)) (some n) := by
  intro files
  induction files with
  | nil => intro checkIdx budget n; rw [List.take_nil]
  | cons f rest ih =>
    intro checkIdx budget n
    by_cases hcan : n ≤ checkIdx
    · have h1 : cancelled (some n) checkIdx = true := by
        simp [cancelled, hcan]
      have h2 : n - checkIdx = 0 := by omega
      rw [scanFiles_cancelled _ _ _ _ _ h1, h2, List.take_zero,
        scanFiles_cancelled _ _ _ _ _ h1]
    · have h1 : cancelled (some n) checkIdx = false := by
        simp only [cancelled, decide_eq_false_iff_not]
        omega
      have h2 : n - checkIdx = (n - (checkIdx + 1)) + 1 := by omega
      rw [h2, List.take_succ_cons]
      by_cases h0 : budget = 0
      · rw [scanFiles, scanFiles]
        simp [h1, h0]
      · rw [scanFiles_cons needle checkIdx budget f rest (some n) h1 h0,
          scanFiles_cons needle checkIdx budget f _ (some n) h1 h0,
          ih (checkIdx + 1) (budget - fileTaken needle budget f) n]

/-! ### Claim theorems -/

/-- C1: for every file and valid inclusive byte range, the buffered-read
and memory-mapped delivery strategies of `serve_file_chunk` produce
byte-identical concatenated output; in particular, on a file above the mmap
threshold whose bytes 999 and 1000 are `B` and `C`, range `[999, 1000]`
yields exactly `BC` under both strategies (and the dispatcher picks the
mmap strategy there). -/
theorem C1_strategy_transparency :
    (∀ (content : List Nat) (s e cs : Nat), 0 < cs →
      (mmapChunks content s e cs).flatten =
        (bufferedChunks content s e cs).flatten) ∧
    (∀ pad : Nat, MMAP_MIN_SIZE ≤ 1001 + pad →
      should_use_mmap (bcScenarioFile pad).length = true ∧
      serve_file_chunk (some (bcScenarioFile pad)) (some 999) (some 1000)
          CHUNK_SIZE =
        Except.ok (mmapChunks (bcScenarioFile pad) 999 1000 CHUNK_SIZE) ∧
      (mmapChunks (bcScenarioFile pad) 999 1000 CHUNK_SIZE).flatten =
        [66, 67] ∧
      (bufferedChunks (bcScenarioFile pad) 999 1000 CHUNK_SIZE).flatten =
        [66, 67]) := by
  constructor
  · intro content s e cs hcs
    rw [mmapChunks_flatten content e cs hcs s,
      bufferedChunks_flatten content e cs hcs s]
  · intro pad hpad
    have hlen : (bcScenarioFile pad).length = 1001 + pad := by
      rw [bcScenarioFile, List.length_append, List.length_replicate,
        List.length_cons, List.length_replicate]
      omega
    have hcsz : (0 : Nat) < CHUNK_SIZE := by norm_num [CHUNK_SIZE]
    have hmm : should_use_mmap (bcScenarioFile pad).length = true := by
      simp only [should_use_mmap, hlen, decide_eq_true_eq]
      exact hpad
    have h999 : (999 : Nat) ≤ (List.replicate 1000 (66 : Nat)).length := by
      rw [List.length_replicate]
      omega
    have hdrop : (bcScenarioFile pad).drop 999 =
        66 :: 67 :: List.replicate pad 88 := by
      rw [bcScenarioFile, List.drop_append_of_le_length h999,
        List.drop_replicate]
      norm_num
    have hmj : (mmapChunks (bcScenarioFile pad) 999 1000 CHUNK_SIZE).flatten =
        [66, 67] := by
      rw [mmapChunks_flatten _ _ _ hcsz 999, hdrop]
      norm_num
    have hbj : (bufferedChunks (bcScenarioFile pad) 999 1000 CHUNK_SIZE).flatten =
        [66, 67] := by
      rw [bufferedChunks_flatten _ _ _ hcsz 999, hdrop]
      norm_num
    have hbig : ¬((bcScenarioFile pad).length ≤ 999) := by
      rw [hlen]
      have : (1024 : Nat) * 1024 ≤ 1001 + pad := hpad
      omega
    have d1 : decide ((bcScenarioFile pad).length ≤ 999) = false :=
      decide_eq_false hbig
    have d2 : decide ((1000 : Nat) < 999) = false := by decide
    refine ⟨hmm, ?_, hmj, hbj⟩
    simp only [serve_file_chunk, d1, d2, Bool.or_self, Bool.or_false,
      Bool.false_or, if_neg, Option.getD_some, hmm, if_pos, Bool.false_eq_true,
      if_false, if_true]

/-- C1 witness: the strategy-transparency theorem applied at concrete
inputs. -/
theorem C1_strategy_transparency_witness :
    (mmapChunks [3, 1, 4, 1, 5] 1 3 2).flatten =
      (bufferedChunks [3, 1, 4, 1, 5] 1 3 2).flatten ∧
    should_use_mmap (bcScenarioFile 1047576).length = true :=
  ⟨C1_strategy_transparency.1 [3, 1, 4, 1, 5] 1 3 2 (by decide),
   (C1_strategy_transparency.2 1047576 (by decide)).1⟩

/-- C3: `find_line_offsets` always returns a nonempty ordered sequence
starting with 0 (a file without any newline — in particular an empty file —
yields exactly `[0]`), every offset after the first immediately follows a
newline byte, and a file with `k ≥ 1` newlines and no trailing partial line
yields exactly `min k max_lines` offsets. -/
theorem C3_find_line_offsets (content : List Nat) (max_lines : Nat) :
    (find_line_offsets content max_lines ≠ [] ∧
      (find_line_offsets content max_lines).head? = some 0) ∧
    (10 ∉ content → find_line_offsets content max_lines = [0]) ∧
    List.Chain' (· < ·) (find_line_offsets content max_lines) ∧
    (∀ off ∈ (find_line_offsets content max_lines).tail,
      0 < off ∧ content[off - 1]? = some 10) ∧
    (∀ l, content = l ++ [10] → 1 ≤ max_lines →
      (find_line_offsets content max_lines).length =
        min (content.count 10) max_lines) := by
  refine ⟨⟨by simp [find_line_offsets], by simp [find_line_offsets]⟩,
    ?_, ?_, ?_, ?_⟩
  · intro h
    rw [find_line_offsets, lineOffsetsAux_nil content 0 (max_lines - 1) h]
  · rw [find_line_offsets]
    refine List.chain'_cons'.mpr
      ⟨?_, lineOffsetsAux_chain content 0 (max_lines - 1)⟩
    intro q hq
    exact (lineOffsetsAux_mem content 0 (max_lines - 1) q
      (List.mem_of_mem_head? hq)).1
  · intro off hoff
    have h := lineOffsetsAux_mem content 0 (max_lines - 1) off
      (by simpa [find_line_offsets] using hoff)
    exact ⟨h.1, by simpa using h.2⟩
  · intro l hl hm
    subst hl
    rw [find_line_offsets, List.length_cons,
      lineOffsetsAux_length l 0 (max_lines - 1)]
    have hc : (l ++ [10]).count 10 = l.count 10 + 1 := by
      simp [List.count_append]
    rw [hc]
    omega

/-- C3 witness: the line-offset theorem applied at concrete files — a file
with no newline yields `[0]`, and a two-line newline-terminated file yields
`min 2 10` offsets. -/
theorem C3_find_line_offsets_witness :
    find_line_offsets [65, 66] 5 = [0] ∧
    (find_line_offsets [65, 10, 66, 10] 10).length =
      min ([65, 10, 66, 10].count 10) 10 :=
  ⟨(C3_find_line_offsets [65, 66] 5).2.1 (by decide),
   (C3_find_line_offsets [65, 10, 66, 10] 10).2.2.2.2 [65, 10, 66] rfl
     (by decide)⟩

/-- C9: `serve_file_chunk` fails with NotFound on a missing file (yielding
no chunks), fails with InvalidRange when `start > end` or
`start ≥ file size`, and a mid-stream I/O failure surfaces an I/O error to
the consumer instead of silently truncating the stream. -/
theorem C9_serve_error_handling :
    (∀ (start stop : Option Nat) (cs : Nat),
      serve_file_chunk none start stop cs =
        Except.error ServeError.notFound) ∧
    (∀ (content : List Nat) (s e cs : Nat), e < s →
      serve_file_chunk (some content) (some s) (some e) cs =
        Except.error ServeError.invalidRange) ∧
    (∀ (content : List Nat) (s cs : Nat) (stop : Option Nat),
      content.length ≤ s →
      serve_file_chunk (some content) (some s) stop cs =
        Except.error ServeError.invalidRange) ∧
    (∀ (content : List Nat) (f pos stop cs : Nat), 0 < cs → pos ≤ f →
      f ≤ stop → f < content.length →
      (serveRunF content (some f) pos stop cs).2 =
        some ServeError.ioError) := by
  refine ⟨?_, ?_, ?_, ?_⟩
  · intro start stop cs
    rfl
  · intro content s e cs h
    simp [serve_file_chunk, h]
  · intro content s cs stop h
    cases stop with
    | none => simp [serve_file_chunk, h]
    | some e => simp [serve_file_chunk, h]
  · intro content f pos stop cs hcs h1 h2 h3
    exact serveRunF_fault content f stop cs hcs pos h1 h2 h3

/-- C9 witness: the failure-mode theorem applied at concrete inputs —
an inverted range, a start at the file size, and an I/O fault at byte 2 of
a five-byte file. -/
theorem C9_serve_error_handling_witness :
    serve_file_chunk (some [1, 2, 3]) (some 2) (some 1) 4 =
      Except.error ServeError.invalidRange ∧
    serve_file_chunk (some [1, 2, 3]) (some 3) none 4 =
      Except.error ServeError.invalidRange ∧
    (serveRunF [1, 2, 3, 4, 5] (some 2) 0 4 2).2 = some ServeError.ioError :=
  ⟨C9_serve_error_handling.2.1 [1, 2, 3] 2 1 4 (by decide),
   C9_serve_error_handling.2.2.1 [1, 2, 3] 3 4 none (by decide),
   C9_serve_error_handling.2.2.2 [1, 2, 3, 4, 5] 2 0 4 2 (by decide)
     (by decide) (by decide) (by decide)⟩

/-- C2: path resolution rejects with Forbidden exactly the paths whose
resolved absolute form does not have the configured root as a
segment-boundary prefix (a mere string-prefix such as `/srv/rootevil/f`
under root `/srv/root` is rejected, as is an upward `..` escape), and a
search over an out-of-root pattern emits a single `error` event, reads no
file, and its output does not depend on any file at all. -/
theorem C2_path_guard :
    (∀ (root user : List String) (userIsAbs : Bool),
      resolve root user userIsAbs = Except.error ResolveError.forbidden ↔
        root.isPrefixOf (normalizePath (joinPath root user userIsAbs)) =
          false) ∧
    (resolve ["srv", "root"] ["srv", "rootevil", "f"] true =
      Except.error ResolveError.forbidden) ∧
    ("/srv/root".toList).isPrefixOf ("/srv/rootevil/f".toList) = true ∧
    (resolve ["srv", "root"] ["..", "etc", "passwd"] false =
      Except.error ResolveError.forbidden) ∧
    (∀ (root pattern : List String) (patternIsAbs : Bool)
      (files : List FileEntry) (search_text : List Char) (max_results : Nat),
      root.isPrefixOf (normalizePath (joinPath root pattern patternIsAbs)) =
        false →
      perform_search root pattern patternIsAbs files search_text max_results
          none =
        [Event.error "Search pattern must be within the server root directory"]) := by
  refine ⟨?_, by rfl, by decide, by rfl, ?_⟩
  · intro root user userIsAbs
    by_cases hp : root.isPrefixOf
        (normalizePath (joinPath root user userIsAbs)) = true
    · simp [resolve, hp]
    · have hp2 : root.isPrefixOf
          (normalizePath (joinPath root user userIsAbs)) = false := by
        rw [Bool.not_eq_true] at hp
        exact hp
      simp [resolve, hp2]
  · intro root pattern patternIsAbs files search_text max_results h
    have hres : resolve root pattern patternIsAbs =
        Except.error ResolveError.forbidden := by
      simp [resolve, h]
    simp [perform_search, cancelled, hres]

/-- C2 witness: the path-guard theorem applied at concrete inputs: the
iff at an in-root path, and the search-level guard at an out-of-root
pattern with a nonempty file list. -/
theorem C2_path_guard_witness :
    perform_search ["srv", "root"] ["etc", "passwd"] true
        [⟨"a.txt", some ['x']⟩] ['x'] 5 none =
      [Event.error "Search pattern must be within the server root directory"] :=
  C2_path_guard.2.2.2.2 ["srv", "root"] ["etc", "passwd"] true
    [⟨"a.txt", some ['x']⟩] ['x'] 5 (by decide)

/-- C4 counterexample: in the one-line file of the claim's scenario the
third occurrence of `test` starts at character offset 24, not 25 — `test`
is a prefix of the line dropped 24 characters but not dropped 25 — so the
claimed `match_positions = [0, 15, 25]` is false: the reported positions
are `[0, 15, 24]`. -/
theorem C4_match_positions_counterexample :
    ("test".toList).isPrefixOf
      (("test line with test and test again".toList).drop 24) = true ∧
    ("test".toList).isPrefixOf
      (("test line with test and test again".toList).drop 25) = false ∧
    match_positions ("test line with test and test again".toList)
      ("test".toList) = [0, 15, 24] ∧
    search_in_file ("test line with test and test again\n".toList)
        ("test".toList) 100 ≠
      [⟨1, "test line with test and test again".toList, [0, 15, 25]⟩] := by
  refine ⟨by decide, by decide, by decide, by decide⟩

/-- C4 (amended): for every line and nonempty literal search string the
reported match positions are exactly the non-overlapping occurrences found
left to right — every reported position is an occurrence, consecutive
positions are at least the needle length apart (hence strictly increasing),
and every occurrence overlaps a reported one; the claim's one-line scenario
yields a single match record with line number 1, the full line without its
trailing newline, and positions `[0, 15, 24]`. -/
theorem C4_match_positions :
    (∀ (line needle : List Char), needle ≠ [] →
      (∀ q ∈ match_positions line needle,
        needle.isPrefixOf (line.drop q) = true) ∧
      List.Chain' (fun p q => p + needle.length ≤ q)
        (match_positions line needle) ∧
      List.Chain' (· < ·) (match_positions line needle) ∧
      (∀ j, needle.isPrefixOf (line.drop j) = true →
        ∃ p ∈ match_positions line needle, p ≤ j ∧ j < p + needle.length)) ∧
    search_in_file ("test line with test and test again\n".toList)
        ("test".toList) 100 =
      [⟨1, "test line with test and test again".toList, [0, 15, 24]⟩] ∧
    scanFiles ("test".toList) 1 100
        [⟨"a.txt", some ("test line with test and test again\n".toList)⟩]
        none =
      [Event.file_start "a.txt",
       Event.matchEv "a.txt" 1 ("test line with test and test again".toList)
         ("test".toList) [0, 15, 24],
       Event.file_end "a.txt", Event.search_complete] := by
  refine ⟨?_, by decide, by decide⟩
  intro line needle hne
  have hL : 1 ≤ needle.length := List.length_pos.mpr hne
  refine ⟨?_, occAux_chain line needle 0 0 hne, ?_, ?_⟩
  · intro q hq
    have h := occAux_mem line needle 0 0 q hne hq
    simpa using h.2
  · refine List.Chain'.imp ?_ (occAux_chain line needle 0 0 hne)
    intro a b hab
    omega
  · intro j hj
    rcases occAux_complete line needle 0 0 j hne hj with h | ⟨p, hp, h1, h2⟩
    · omega
    · exact ⟨p, hp, by omega, by omega⟩

/-- C4 witness: the amended theorem applied at a concrete line and
needle. -/
theorem C4_match_positions_witness :
    ∀ q ∈ match_positions ("abab".toList) ("ab".toList),
      ("ab".toList).isPrefixOf (("abab".toList).drop q) = true :=
  (C4_match_positions.1 ("abab".toList) ("ab".toList) (by decide)).1

/-- C5: with result cap `k` and more than `k` matching lines across the
globbed files, the search emits exactly `k` match events and its event
sequence ends with a `search_complete` event. -/
theorem C5_max_results_cap (root pattern : List String) (patternIsAbs : Bool)
    (files : List FileEntry) (search_text : List Char) (k : Nat)
    (hin : root.isPrefixOf (normalizePath (joinPath root pattern patternIsAbs)) =
      true)
    (hmore : k < totalMatches search_text files) :
    countMatches
        (perform_search root pattern patternIsAbs files search_text k none) =
      k ∧
    ∃ pre, perform_search root pattern patternIsAbs files search_text k none =
      pre ++ [Event.search_complete] := by
  have hres : resolve root pattern patternIsAbs =
      Except.ok (normalizePath (joinPath root pattern patternIsAbs)) := by
    simp [resolve, hin]
  have hne : files ≠ [] := by
    intro h
    subst h
    simp [totalMatches] at hmore
  have hemp : files.isEmpty = false := by
    cases files with
    | nil => exact absurd rfl hne
    | cons f fs => rfl
  have hps : perform_search root pattern patternIsAbs files search_text k none =
      Event.search_start :: scanFiles search_text 1 k files none := by
    simp [perform_search, cancelled, hres, hemp]
  rw [hps]
  constructor
  · rw [countMatches_cons]
    have : isMatchEvent Event.search_start = false := rfl
    rw [this]
    rw [scanFiles_count search_text files 1 k]
    simp
    omega
  · obtain ⟨pre, hpre⟩ := scanFiles_ends_complete search_text files 1 k
    exact ⟨Event.search_start :: pre, by rw [hpre, List.cons_append]⟩

/-- C5 witness: the cap theorem applied to two files with three matching
lines in total and cap 1. -/
theorem C5_max_results_cap_witness :
    countMatches (perform_search ["r"] ["r", "d"] true
      [⟨"a", some ("x\n".toList)⟩, ⟨"b", some ("x\nx\n".toList)⟩]
      ("x".toList) 1 none) = 1 ∧
    ∃ pre, perform_search ["r"] ["r", "d"] true
      [⟨"a", some ("x\n".toList)⟩, ⟨"b", some ("x\nx\n".toList)⟩]
      ("x".toList) 1 none = pre ++ [Event.search_complete] :=
  C5_max_results_cap ["r"] ["r", "d"] true
    [⟨"a", some ("x\n".toList)⟩, ⟨"b", some ("x\nx\n".toList)⟩]
    ("x".toList) 1 (by decide) (by decide)

/-- C6: a search request arriving with the session's cancellation flag
already set emits no events at all; once the flag is set at or before a
cooperative check point the scan loop emits nothing further; the events of
a scan cancelled from check point `n` only involve the files taken before
that point; and closing the connection sets the flag. -/
theorem C6_cancellation :
    (∀ (root pattern : List String) (patternIsAbs : Bool)
      (files : List FileEntry) (search_text : List Char) (max_results : Nat),
      perform_search root pattern patternIsAbs files search_text max_results
        (some 0) = []) ∧
    (∀ (needle : List Char) (checkIdx budget n : Nat) (files : List FileEntry),
      n ≤ checkIdx → scanFiles needle checkIdx budget files (some n) = []) ∧
    (∀ (needle : List Char) (checkIdx budget n : Nat) (files : List FileEntry),
      scanFiles needle checkIdx budget files (some n) =
        scanFiles needle checkIdx budget (files.take (n - checkIdx))
          (some n)) ∧
    (∀ s, (on_close s).search_cancelled = true) := by
  refine ⟨?_, ?_, ?_, fun s => rfl⟩
  · intro root pattern patternIsAbs files search_text max_results
    simp [perform_search, cancelled]
  · intro needle checkIdx budget n files h
    exact scanFiles_cancelled needle checkIdx budget files (some n)
      (by simp [cancelled, h])
  · intro needle checkIdx budget n files
    exact scanFiles_cancel_take needle files checkIdx budget n

/-- C6 witness: the cancellation theorem applied at a concrete cancelled
scan. -/
theorem C6_cancellation_witness :
    scanFiles ['x'] 1 5 [⟨"a.txt", none⟩] (some 1) = [] :=
  C6_cancellation.2.1 ['x'] 1 5 1 [⟨"a.txt", none⟩] (by decide)

/-- C7: a failing file produces a `file_error` event carrying its path and
the scan continues with the remaining files; with no cancellation the
search still ends with `search_complete`, so a per-file failure never
terminates the session. -/
theorem C7_file_error_continues :
    (∀ (needle : List Char) (checkIdx budget : Nat) (bad : FileEntry)
      (rest : List FileEntry) (cancelFrom : Option Nat),
      cancelled cancelFrom checkIdx = false → budget ≠ 0 →
      bad.content = none →
      scanFiles needle checkIdx budget (bad :: rest) cancelFrom =
        Event.file_error bad.name "Error searching file" ::
          scanFiles needle (checkIdx + 1) budget rest cancelFrom) ∧
    (∀ (needle : List Char) (files : List FileEntry) (checkIdx budget : Nat),
      ∃ pre, scanFiles needle checkIdx budget files none =
        pre ++ [Event.search_complete]) := by
  constructor
  · intro needle checkIdx budget bad rest cancelFrom h1 h0 hc
    rw [scanFiles_cons needle checkIdx budget bad rest cancelFrom h1 h0]
    have hfe : fileEvents needle budget bad =
        [Event.file_error bad.name "Error searching file"] := by
      simp [fileEvents, hc]
    have hft : fileTaken needle budget bad = 0 := by
      simp [fileTaken, hc]
    rw [hfe, hft]
    simp
  · exact fun needle files checkIdx budget =>
      scanFiles_ends_complete needle files checkIdx budget

/-- C7 witness: the continuation theorem applied to an unreadable file
followed by a readable one. -/
theorem C7_file_error_continues_witness :
    scanFiles ['x'] 1 5 [⟨"bad.txt", none⟩, ⟨"good.txt", some ['x']⟩] none =
      Event.file_error "bad.txt" "Error searching file" ::
        scanFiles ['x'] 2 5 [⟨"good.txt", some ['x']⟩] none :=
  C7_file_error_continues.1 ['x'] 1 5 ⟨"bad.txt", none⟩
    [⟨"good.txt", some ['x']⟩] none rfl (by decide) rfl

/-- C8: a search whose glob pattern matches zero files emits exactly
`search_start` followed by `no_files` and nothing else. -/
theorem C8_no_files (root pattern : List String) (patternIsAbs : Bool)
    (search_text : List Char) (max_results : Nat)
    (hin : root.isPrefixOf (normalizePath (joinPath root pattern patternIsAbs)) =
      true) :
    perform_search root pattern patternIsAbs [] search_text max_results none =
      [Event.search_start, Event.no_files "No files found matching pattern"] := by
  have hres : resolve root pattern patternIsAbs =
      Except.ok (normalizePath (joinPath root pattern patternIsAbs)) := by
    simp [resolve, hin]
  simp [perform_search, cancelled, hres]

/-- C8 witness: the empty-glob theorem applied at a concrete in-root
pattern. -/
theorem C8_no_files_witness :
    perform_search ["r"] ["r", "nothing"] true [] ['x'] 5 none =
      [Event.search_start, Event.no_files "No files found matching pattern"] :=
  C8_no_files ["r"] ["r", "nothing"] true ['x'] 5 (by decide)

/-- C10: opening the search websocket without an authenticated user closes
the connection immediately and such a session delivers no search events at
all; opening with an authenticated user leaves the connection open with the
cancellation flag initialized to false. -/
theorem C10_open_auth :
    (∀ (root pattern : List String) (patternIsAbs : Bool)
      (files : List FileEntry) (search_text : List Char) (max_results : Nat)
      (cancelFrom : Option Nat),
      session_search_events none root pattern patternIsAbs files search_text
        max_results cancelFrom = []) ∧
    (wsOpen none).closed = true ∧
    (∀ u, wsOpen (some u) = ⟨false, false⟩) := by
  refine ⟨?_, rfl, fun u => rfl⟩
  intro root pattern patternIsAbs files search_text max_results cancelFrom
  rfl
